import Mathlib

/-!
Verification of the asynchronous drain-to-end operation of
`futures-util/src/io/read_to_end.rs`.

The buffer (`Vec<u8>`) is modelled as a list of cells plus a length: a cell is
`Option Nat`, where `none` stands for an uninitialized byte of the allocation
and `some v` for an initialized byte of value `v`.  The list's length is the
vector's capacity; the `len` field is the vector's length (`set_len` just
rewrites it).  The reader (`AsyncRead`) is modelled as a finite trace of
outcomes of its successive `poll_read` calls — a chunk of bytes (empty chunk =
`Ok(0)`, i.e. end of stream), `Poll::Pending`, `Err(e)`, or an unwind out of
the call — together with the flag saying whether its `initializer()`
zero-fills the slice (`true` = the default zeroing initializer, `false` = the
trusted no-op initializer).
-/

namespace ReadToEnd

/-- A byte value (Rust `u8`); no byte arithmetic occurs in this code, so a
plain natural number is used. -/
abbrev Byte := Nat

/-- One cell of the vector's allocation: `none` = uninitialized storage. -/
abbrev Cell := Option Byte

/-- Model of `Vec<u8>`: `storage` is the whole allocation (its length is the
capacity), `len` is the vector length (`Vec::len`, changed by `set_len`). -/
structure Buf where
  storage : List Cell
  len : Nat
deriving Repr, DecidableEq

/-- `Vec::capacity`. -/
def Buf.capacity (b : Buf) : Nat := b.storage.length

/-- The caller-visible content of the vector: the first `len` cells. -/
def Buf.visible (b : Buf) : List Cell := b.storage.take b.len

/-- The `Vec` representation invariant: length never exceeds capacity. -/
abbrev Buf.wf (b : Buf) : Prop := b.len ≤ b.capacity

/-- Every caller-visible byte is initialized. -/
abbrev Buf.initialized (b : Buf) : Prop := ∀ c ∈ b.visible, c.isSome = true

/-- Outcome of one `poll_read` call of the reader. -/
inductive ReadOutcome where
  /-- `Poll::Ready(Ok(n))`, delivering these bytes; `[]` means `Ok(0)`,
  i.e. end of stream. -/
  | chunk (bytes : List Byte)
  /-- `Poll::Pending`. -/
  | pending
  /-- `Poll::Ready(Err(e))`. -/
  | err (e : Nat)
  /-- the `poll_read` call unwinds (panics) instead of returning. -/
  | unwind
deriving Repr, DecidableEq

/-- Model of the reader: the trace of outcomes of its successive `poll_read`
calls, and whether its `initializer()` zero-fills the destination slice
(`true` = default safe initializer, `false` = trusted no-op initializer). -/
structure Reader where
  events : List ReadOutcome
  preinit : Bool
deriving Repr, DecidableEq

/-- Result of one call of `read_to_end_internal` (or of driving it). -/
inductive RunResult where
  /-- `Poll::Ready(Ok(()))`. -/
  | ok
  /-- `Poll::Ready(Err(e))`. -/
  | errored (e : Nat)
  /-- `Poll::Pending`. -/
  | pending
  /-- the call unwound because `poll_read` panicked. -/
  | unwound
deriving Repr, DecidableEq

/-- `Vec::reserve(add)` called on a vector of length `len` and capacity
`cap`: guarantees capacity at least `len + add`, growing by amortized
doubling (`max (2*cap) (len+add)`) when growth is needed. -/
def reserveCap (len add cap : Nat) : Nat :=
  if len + add ≤ cap then cap else max (2 * cap) (len + add)

/-- Zero-fill the cells of `s` from position `off` to the end: the effect of
`Initializer::initialize` (the zeroing initializer) on the slice
`buf[off..]`. -/
def zeroFrom (s : List Cell) (off : Nat) : List Cell :=
  s.take off ++ List.replicate (s.length - off) (some 0)

/-- Write the bytes `bs` into the cells of `s` starting at position `off`:
the effect of the reader writing into the slice `buf[off..]`. -/
def writeAt (s : List Cell) (off : Nat) (bs : List Byte) : List Cell :=
  s.take off ++ bs.map some ++ s.drop (off + bs.length)

/-- The growth block of the loop (`read_to_end.rs` lines 49–54), entered when
`g.len == g.buf.len()`: `g.buf.reserve(32)`, `set_len(capacity)`, then
`rd.initializer().initialize(&mut g.buf[g.len..])` — the zero-fill happening
exactly when the reader's initializer is the zeroing one. -/
def growBuf (preinit : Bool) (gLen : Nat) (b : Buf) : Buf :=
  let cap := reserveCap b.len 32 b.capacity
  let s1 := b.storage ++ List.replicate (cap - b.capacity) none
  let s2 := if preinit then zeroFrom s1 gLen else s1
  ⟨s2, cap⟩

/-- The conditional growth at the top of the loop body
(`if g.len == g.buf.len() { ... }`). -/
def growIf (preinit : Bool) (gLen : Nat) (b : Buf) : Buf :=
  if gLen = b.len then growBuf preinit gLen b else b

/-- Result of one iteration of the loop body. -/
inductive StepOut where
  /-- `Poll::Ready(Ok(n))` with `n > 0`: the loop continues with the new
  committed length and buffer; `written` records the bytes the reader wrote,
  `grew` whether the reservation enlarged the capacity, `clamp` whether the
  reader had more bytes than the slice could hold. -/
  | cont (gLen : Nat) (buf : Buf) (written : List Byte) (grew : Bool) (clamp : Bool)
  /-- the loop exits (result `r`); the buffer already reflects the `Guard`
  drop, which forces the vector length back to the committed length. -/
  | exit (r : RunResult) (buf : Buf) (grew : Bool) (clamp : Bool)
deriving Repr, DecidableEq

/-- One iteration of the loop of `read_to_end_internal` (lines 47–68):
conditional growth, then `poll_read` on the slice `g.buf[g.len..]`, then the
interpretation of its outcome.  On every exit path the `Guard`'s `Drop`
(lines 25–29) has set the vector length back to the committed length `gLen`;
this includes the unwind outcome, since Rust runs the guard's destructor
while unwinding through the enclosing scope. -/
def loopStep (preinit : Bool) (ev : ReadOutcome) (gLen : Nat) (b : Buf) : StepOut :=
  let b1 := growIf preinit gLen b
  let grew := decide (b.capacity < b1.capacity)
  match ev with
  | ReadOutcome.pending => StepOut.exit RunResult.pending ⟨b1.storage, gLen⟩ grew false
  | ReadOutcome.unwind => StepOut.exit RunResult.unwound ⟨b1.storage, gLen⟩ grew false
  | ReadOutcome.err e => StepOut.exit (RunResult.errored e) ⟨b1.storage, gLen⟩ grew false
  | ReadOutcome.chunk bytes =>
    let d := b1.len - gLen
    let n := min bytes.length d
    let clamp := decide (d < bytes.length)
    if n = 0 then StepOut.exit RunResult.ok ⟨b1.storage, gLen⟩ grew clamp
    else StepOut.cont (gLen + n) ⟨writeAt b1.storage gLen (bytes.take d), b1.len⟩
      (bytes.take d) grew clamp

/-- Aggregate outcome of a run: the result, the buffer after the `Guard`
fired, the reader events not yet consumed, the number of reservations that
actually enlarged the capacity, whether any chunk was larger than the slice
offered to the reader, and the bytes the reader committed, in order. -/
structure RunOut where
  result : RunResult
  buf : Buf
  rest : List ReadOutcome
  grows : Nat
  clamped : Bool
  delivered : List Byte
deriving Repr, DecidableEq

/-- The loop of `read_to_end_internal`, driven by the reader's event trace
(one event per `poll_read` call).  Returns `none` when the trace is exhausted
with the loop still running. -/
def readToEndLoop (preinit : Bool) : List ReadOutcome → Nat → Buf → Option RunOut
  | [], _, _ => none
  | ev :: rest, gLen, b =>
    match loopStep preinit ev gLen b with
    | StepOut.exit r b2 grew cl =>
      some ⟨r, b2, rest, if grew then 1 else 0, cl, []⟩
    | StepOut.cont gLen2 b2 w grew cl =>
      match readToEndLoop preinit rest gLen2 b2 with
      | none => none
      | some out =>
        some ⟨out.result, out.buf, out.rest, (if grew then 1 else 0) + out.grows,
          cl || out.clamped, w ++ out.delivered⟩

/-- `read_to_end_internal` (lines 40–72): the guard is created with
`len = buf.len()`, then the loop runs. -/
def read_to_end_internal (rd : Reader) (b : Buf) : Option RunOut :=
  readToEndLoop rd.preinit rd.events b.len b

/-- Driving `ReadToEnd::poll` repeatedly (each call re-enters
`read_to_end_internal` with no state other than the buffer) until a
non-pending result, with `fuel` bounding the number of polls. -/
def drive : Nat → Reader → Buf → Option RunOut
  | 0, _, _ => none
  | Nat.succ fuel, rd, b =>
    match read_to_end_internal rd b with
    | none => none
    | some o =>
      match o.result with
      | RunResult.pending =>
        match drive fuel ⟨o.rest, rd.preinit⟩ o.buf with
        | none => none
        | some o2 =>
          some ⟨o2.result, o2.buf, o2.rest, o.grows + o2.grows,
            o.clamped || o2.clamped, o.delivered ++ o2.delivered⟩
      | _ => some o

/-- Trace-level prediction of one `read_to_end_internal` call: the result it
returns and the events left unconsumed, assuming every chunk fits the slice. -/
def pollSpec : List ReadOutcome → Option (RunResult × List ReadOutcome)
  | [] => none
  | ReadOutcome.chunk [] :: rest => some (RunResult.ok, rest)
  | ReadOutcome.chunk (_ :: _) :: rest => pollSpec rest
  | ReadOutcome.pending :: rest => some (RunResult.pending, rest)
  | ReadOutcome.err e :: rest => some (RunResult.errored e, rest)
  | ReadOutcome.unwind :: rest => some (RunResult.unwound, rest)

/-- Bytes committed during one `read_to_end_internal` call, read off the
trace: the concatenation of the chunks before the first non-chunk or empty
chunk event. -/
def deliveredPoll : List ReadOutcome → List Byte
  | ReadOutcome.chunk (x :: xs) :: rest => x :: (xs ++ deliveredPoll rest)
  | ReadOutcome.chunk [] :: _ => []
  | ReadOutcome.pending :: _ => []
  | ReadOutcome.err _ :: _ => []
  | ReadOutcome.unwind :: _ => []
  | [] => []

/-- Bytes committed over a whole driven run: the concatenation of the chunks
before the trace's terminating event, pendings skipped. -/
def deliveredDrive : List ReadOutcome → List Byte
  | ReadOutcome.chunk (x :: xs) :: rest => x :: (xs ++ deliveredDrive rest)
  | ReadOutcome.pending :: rest => deliveredDrive rest
  | ReadOutcome.chunk [] :: _ => []
  | ReadOutcome.err _ :: _ => []
  | ReadOutcome.unwind :: _ => []
  | [] => []

/-- Trace-level prediction of the final result of a driven run. -/
def driveSpec : List ReadOutcome → Option RunResult
  | [] => none
  | ReadOutcome.chunk [] :: _ => some RunResult.ok
  | ReadOutcome.chunk (_ :: _) :: rest => driveSpec rest
  | ReadOutcome.pending :: rest => driveSpec rest
  | ReadOutcome.err e :: _ => some (RunResult.errored e)
  | ReadOutcome.unwind :: _ => some RunResult.unwound

/-! ### Concrete sample runs (used to instantiate the claims) -/

def wbufA : Buf := ⟨[some 9], 1⟩

def wrdA : Reader := ⟨[ReadOutcome.chunk [1, 2, 3], ReadOutcome.pending], true⟩

def woutA : RunOut :=
  ⟨RunResult.pending,
    ⟨[some 9, some 1, some 2, some 3] ++ List.replicate 29 (some 0), 4⟩,
    [], 1, false, [1, 2, 3]⟩

def wrdB : Reader :=
  ⟨[ReadOutcome.chunk [5, 5], ReadOutcome.pending, ReadOutcome.chunk [7],
    ReadOutcome.chunk []], true⟩

def woutB : RunOut :=
  ⟨RunResult.ok, ⟨[some 5, some 5, some 7] ++ List.replicate 61 (some 0), 3⟩,
    [], 2, false, [5, 5, 7]⟩

def wrdC : Reader := ⟨[ReadOutcome.chunk [1, 2, 3], ReadOutcome.err 7], true⟩

def woutC : RunOut :=
  ⟨RunResult.errored 7,
    ⟨[some 9, some 1, some 2, some 3] ++ List.replicate 29 (some 0), 4⟩,
    [], 1, false, [1, 2, 3]⟩

def wrdD : Reader := ⟨[ReadOutcome.pending, ReadOutcome.chunk []], true⟩

def woutD : RunOut :=
  ⟨RunResult.pending, ⟨some 9 :: List.replicate 32 (some 0), 1⟩,
    [ReadOutcome.chunk []], 1, false, []⟩

def wrdE : Reader := ⟨[ReadOutcome.chunk [4], ReadOutcome.unwind], false⟩

def woutE : RunOut :=
  ⟨RunResult.unwound, ⟨some 4 :: List.replicate 31 none, 1⟩, [], 1, false, [4]⟩

def wrdF : Reader := ⟨[ReadOutcome.chunk []], true⟩

def woutF : RunOut :=
  ⟨RunResult.ok, ⟨List.replicate 32 (some 0), 0⟩, [], 1, false, []⟩

def wrdG : Reader := ⟨[ReadOutcome.pending], true⟩

def woutG : RunOut :=
  ⟨RunResult.pending, ⟨some 9 :: List.replicate 32 (some 0), 1⟩, [], 1, false, []⟩

/-! ### Basic facts about the growth primitives -/

theorem reserveCap_ge_cap (len add cap : Nat) : cap ≤ reserveCap len add cap := by
  unfold reserveCap
  split
  · exact Nat.le_refl _
  · exact le_trans (by omega) (Nat.le_max_left (2 * cap) (len + add))

theorem reserveCap_ge_needed (len add cap : Nat) :
    len + add ≤ reserveCap len add cap := by
  unfold reserveCap
  split
  · assumption
  · exact Nat.le_max_right _ _

theorem growBuf_len (p : Bool) (gLen : Nat) (b : Buf) :
    (growBuf p gLen b).len = reserveCap b.len 32 b.capacity := rfl

theorem growBuf_capacity (p : Bool) (gLen : Nat) (b : Buf) (h1 : gLen ≤ b.len)
    (hwf : b.wf) :
    (growBuf p gLen b).capacity = reserveCap b.len 32 b.capacity := by
  have hc := reserveCap_ge_cap b.len 32 b.capacity
  have h2 : gLen ≤ b.capacity := le_trans h1 hwf
  cases p <;>
    simp only [growBuf, zeroFrom, Bool.false_eq_true, if_false, if_true, Buf.capacity,
      List.length_append, List.length_take, List.length_replicate] at hc h2 ⊢ <;>
    omega

theorem growBuf_take (p : Bool) (gLen : Nat) (b : Buf) (h1 : gLen ≤ b.len)
    (hwf : b.wf) :
    (growBuf p gLen b).storage.take gLen = b.storage.take gLen := by
  have h2 : gLen ≤ b.capacity := le_trans h1 hwf
  have hx : (b.storage ++
      List.replicate (reserveCap b.len 32 b.capacity - b.capacity) none).take gLen =
      b.storage.take gLen := List.take_append_of_le_length h2
  cases p
  · simpa only [growBuf, Bool.false_eq_true, if_false] using hx
  · simp only [growBuf, zeroFrom, if_true]
    rw [List.take_append_of_le_length, List.take_take, Nat.min_self, hx]
    rw [List.length_take]
    have : gLen ≤ (b.storage ++
        List.replicate (reserveCap b.len 32 b.capacity - b.capacity) none).length := by
      rw [List.length_append]
      exact le_trans h2 (Nat.le_add_right _ _)
    omega

theorem growBuf_drop_zero (gLen : Nat) (b : Buf) (h1 : gLen ≤ b.len) (hwf : b.wf) :
    (growBuf true gLen b).storage.drop gLen =
      List.replicate ((growBuf true gLen b).capacity - gLen) (some 0) := by
  have h2 : gLen ≤ b.capacity := le_trans h1 hwf
  have hcap := growBuf_capacity true gLen b h1 hwf
  have hc := reserveCap_ge_cap b.len 32 b.capacity
  have hlen : gLen ≤ (b.storage ++
      List.replicate (reserveCap b.len 32 b.capacity - b.capacity) none).length := by
    rw [List.length_append]
    exact le_trans h2 (Nat.le_add_right _ _)
  simp only [growBuf, zeroFrom, if_true, Buf.capacity] at hcap hc h2 hlen ⊢
  rw [List.drop_left' (by rw [List.length_take]; omega)]
  congr 1
  simp only [List.length_append, List.length_take, List.length_replicate] at hcap ⊢
  omega

theorem growBuf_storage_skip (gLen : Nat) (b : Buf) :
    (growBuf false gLen b).storage =
      b.storage ++
        List.replicate (reserveCap b.len 32 b.capacity - b.capacity) none := rfl

/-! ### Facts about the conditional growth `growIf` -/

theorem growIf_take (p : Bool) (gLen : Nat) (b : Buf) (h1 : gLen ≤ b.len)
    (hwf : b.wf) :
    (growIf p gLen b).storage.take gLen = b.storage.take gLen := by
  unfold growIf
  split
  · exact growBuf_take p gLen b h1 hwf
  · rfl

theorem growIf_le_len (p : Bool) (gLen : Nat) (b : Buf) (h1 : gLen ≤ b.len) :
    gLen ≤ (growIf p gLen b).len := by
  unfold growIf
  split
  · rw [growBuf_len]
    exact le_trans (le_trans h1 (Nat.le_add_right _ 32)) (reserveCap_ge_needed _ _ _)
  · exact h1

theorem growIf_len_ge (p : Bool) (gLen : Nat) (b : Buf) :
    b.len ≤ (growIf p gLen b).len := by
  unfold growIf
  split
  · rw [growBuf_len]
    exact le_trans (Nat.le_add_right _ 32) (reserveCap_ge_needed _ _ _)
  · exact Nat.le_refl _

theorem growIf_len_le_cap (p : Bool) (gLen : Nat) (b : Buf) (h1 : gLen ≤ b.len)
    (hwf : b.wf) :
    (growIf p gLen b).len ≤ (growIf p gLen b).capacity := by
  unfold growIf
  split
  · rw [growBuf_len, growBuf_capacity p gLen b h1 hwf]
  · exact hwf

theorem growIf_cap_mono (p : Bool) (gLen : Nat) (b : Buf) (h1 : gLen ≤ b.len)
    (hwf : b.wf) :
    b.capacity ≤ (growIf p gLen b).capacity := by
  unfold growIf
  split
  · rw [growBuf_capacity p gLen b h1 hwf]
    exact reserveCap_ge_cap _ _ _
  · exact Nat.le_refl _

/-! ### Facts about `writeAt` -/

theorem writeAt_length (s : List Cell) (off : Nat) (bs : List Byte)
    (h : off + bs.length ≤ s.length) :
    (writeAt s off bs).length = s.length := by
  unfold writeAt
  rw [List.length_append, List.length_append, List.length_take, List.length_map,
    List.length_drop]
  omega

theorem writeAt_take_prefix (s : List Cell) (off : Nat) (bs : List Byte)
    (h : off ≤ s.length) :
    (writeAt s off bs).take off = s.take off := by
  unfold writeAt
  rw [List.append_assoc, List.take_append_of_le_length (by rw [List.length_take]; omega),
    List.take_take, Nat.min_self]

theorem writeAt_take_full (s : List Cell) (off : Nat) (bs : List Byte)
    (h : off + bs.length ≤ s.length) :
    (writeAt s off bs).take (off + bs.length) = s.take off ++ bs.map some := by
  unfold writeAt
  exact List.take_left'
    (by rw [List.length_append, List.length_take, List.length_map]; omega)

/-! ### Characterization of one loop iteration -/

theorem loopStep_pending (p : Bool) (gLen : Nat) (b : Buf) :
    loopStep p ReadOutcome.pending gLen b =
      StepOut.exit RunResult.pending ⟨(growIf p gLen b).storage, gLen⟩
        (decide (b.capacity < (growIf p gLen b).capacity)) false := rfl

theorem loopStep_unwind (p : Bool) (gLen : Nat) (b : Buf) :
    loopStep p ReadOutcome.unwind gLen b =
      StepOut.exit RunResult.unwound ⟨(growIf p gLen b).storage, gLen⟩
        (decide (b.capacity < (growIf p gLen b).capacity)) false := rfl

theorem loopStep_err (p : Bool) (e : Nat) (gLen : Nat) (b : Buf) :
    loopStep p (ReadOutcome.err e) gLen b =
      StepOut.exit (RunResult.errored e) ⟨(growIf p gLen b).storage, gLen⟩
        (decide (b.capacity < (growIf p gLen b).capacity)) false := rfl

theorem loopStep_chunk_eof (p : Bool) (bytes : List Byte) (gLen : Nat) (b : Buf)
    (hn : min bytes.length ((growIf p gLen b).len - gLen) = 0) :
    loopStep p (ReadOutcome.chunk bytes) gLen b =
      StepOut.exit RunResult.ok ⟨(growIf p gLen b).storage, gLen⟩
        (decide (b.capacity < (growIf p gLen b).capacity))
        (decide ((growIf p gLen b).len - gLen < bytes.length)) := by
  simp only [loopStep, hn, if_true]

theorem loopStep_chunk_cont (p : Bool) (bytes : List Byte) (gLen : Nat) (b : Buf)
    (hn : min bytes.length ((growIf p gLen b).len - gLen) ≠ 0) :
    loopStep p (ReadOutcome.chunk bytes) gLen b =
      StepOut.cont (gLen + min bytes.length ((growIf p gLen b).len - gLen))
        ⟨writeAt (growIf p gLen b).storage gLen
            (bytes.take ((growIf p gLen b).len - gLen)),
          (growIf p gLen b).len⟩
        (bytes.take ((growIf p gLen b).len - gLen))
        (decide (b.capacity < (growIf p gLen b).capacity))
        (decide ((growIf p gLen b).len - gLen < bytes.length)) := by
  simp only [loopStep, hn, if_false]

theorem readToEndLoop_cons_exit (p : Bool) (ev : ReadOutcome)
    (rest : List ReadOutcome) (gLen : Nat) (b : Buf) (r : RunResult) (b2 : Buf)
    (grew cl : Bool) (hstep : loopStep p ev gLen b = StepOut.exit r b2 grew cl) :
    readToEndLoop p (ev :: rest) gLen b =
      some ⟨r, b2, rest, if grew then 1 else 0, cl, []⟩ := by
  simp only [readToEndLoop, hstep]

theorem readToEndLoop_cons_cont (p : Bool) (ev : ReadOutcome)
    (rest : List ReadOutcome) (gLen : Nat) (b : Buf) (gLen2 : Nat) (b2 : Buf)
    (w : List Byte) (grew cl : Bool)
    (hstep : loopStep p ev gLen b = StepOut.cont gLen2 b2 w grew cl) :
    readToEndLoop p (ev :: rest) gLen b =
      match readToEndLoop p rest gLen2 b2 with
      | none => none
      | some out =>
        some ⟨out.result, out.buf, out.rest, (if grew then 1 else 0) + out.grows,
          cl || out.clamped, w ++ out.delivered⟩ := by
  simp only [readToEndLoop, hstep]

/-! ### The main invariant of the drain loop -/

/-- Master invariant of one `read_to_end_internal` call, starting from
committed length `gLen`: on every return the vector length equals the
committed length, the committed region is the original committed prefix
followed by the bytes the reader delivered, the `Vec` invariant holds, the
capacity never shrank, and — when every chunk fitted its slice — the result,
the leftover events and the delivered bytes are the ones predicted from the
trace. -/
theorem readToEndLoop_spec (p : Bool) (events : List ReadOutcome) :
    ∀ (gLen : Nat) (b : Buf) (out : RunOut),
      gLen ≤ b.len → b.len ≤ b.capacity →
      readToEndLoop p events gLen b = some out →
      out.buf.len = gLen + out.delivered.length ∧
      out.buf.storage.take out.buf.len =
        b.storage.take gLen ++ out.delivered.map some ∧
      out.buf.len ≤ out.buf.capacity ∧
      b.capacity ≤ out.buf.capacity ∧
      (out.clamped = false →
        pollSpec events = some (out.result, out.rest) ∧
        out.delivered = deliveredPoll events) := by
  induction events with
  | nil =>
    intro gLen b out h1 h2 h
    simp [readToEndLoop] at h
  | cons ev rest ih =>
    intro gLen b out h1 h2 h
    have hb1len : gLen ≤ (growIf p gLen b).len := growIf_le_len p gLen b h1
    have hb1cap : (growIf p gLen b).len ≤ (growIf p gLen b).capacity :=
      growIf_len_le_cap p gLen b h1 h2
    have hb1take : (growIf p gLen b).storage.take gLen = b.storage.take gLen :=
      growIf_take p gLen b h1 h2
    have hb1mono : b.capacity ≤ (growIf p gLen b).capacity :=
      growIf_cap_mono p gLen b h1 h2
    cases ev with
    | pending =>
      rw [readToEndLoop_cons_exit p _ rest gLen b _ _ _ _
        (loopStep_pending p gLen b)] at h
      injection h with h
      subst h
      refine ⟨by simp, by simpa using hb1take, le_trans hb1len hb1cap, hb1mono, ?_⟩
      intro _
      exact ⟨by simp [pollSpec], by simp [deliveredPoll]⟩
    | unwind =>
      rw [readToEndLoop_cons_exit p _ rest gLen b _ _ _ _
        (loopStep_unwind p gLen b)] at h
      injection h with h
      subst h
      refine ⟨by simp, by simpa using hb1take, le_trans hb1len hb1cap, hb1mono, ?_⟩
      intro _
      exact ⟨by simp [pollSpec], by simp [deliveredPoll]⟩
    | err e =>
      rw [readToEndLoop_cons_exit p _ rest gLen b _ _ _ _
        (loopStep_err p e gLen b)] at h
      injection h with h
      subst h
      refine ⟨by simp, by simpa using hb1take, le_trans hb1len hb1cap, hb1mono, ?_⟩
      intro _
      exact ⟨by simp [pollSpec], by simp [deliveredPoll]⟩
    | chunk bytes =>
      by_cases hn : min bytes.length ((growIf p gLen b).len - gLen) = 0
      · rw [readToEndLoop_cons_exit p _ rest gLen b _ _ _ _
          (loopStep_chunk_eof p bytes gLen b hn)] at h
        injection h with h
        subst h
        refine ⟨by simp, by simpa using hb1take, le_trans hb1len hb1cap, hb1mono, ?_⟩
        intro hcl
        simp only [decide_eq_false_iff_not, Nat.not_lt] at hcl
        have hb : bytes.length = 0 := by omega
        have hbnil : bytes = [] := List.length_eq_zero.mp hb
        subst hbnil
        exact ⟨by simp [pollSpec], by simp [deliveredPoll]⟩
      · rw [readToEndLoop_cons_cont p _ rest gLen b _ _ _ _ _
          (loopStep_chunk_cont p bytes gLen b hn)] at h
        cases hrec : readToEndLoop p rest
            (gLen + min bytes.length ((growIf p gLen b).len - gLen))
            ⟨writeAt (growIf p gLen b).storage gLen
                (bytes.take ((growIf p gLen b).len - gLen)),
              (growIf p gLen b).len⟩ with
        | none => rw [hrec] at h; simp at h
        | some o2 =>
          rw [hrec] at h
          injection h with h
          subst h
          have hnd : min bytes.length ((growIf p gLen b).len - gLen) ≤
              (growIf p gLen b).len - gLen := Nat.min_le_right _ _
          have hwlen : (bytes.take ((growIf p gLen b).len - gLen)).length =
              min bytes.length ((growIf p gLen b).len - gLen) := by
            rw [List.length_take, Nat.min_comm]
          have hgl2 : gLen + min bytes.length ((growIf p gLen b).len - gLen) ≤
              (growIf p gLen b).len := by omega
          have hfit : gLen + (bytes.take ((growIf p gLen b).len - gLen)).length ≤
              (growIf p gLen b).storage.length := by
            rw [hwlen]
            exact le_trans hgl2 hb1cap
          have hstor : (writeAt (growIf p gLen b).storage gLen
              (bytes.take ((growIf p gLen b).len - gLen))).length =
              (growIf p gLen b).storage.length :=
            writeAt_length _ _ _ hfit
          obtain ⟨ih1, ih2, ih3, ih4, ih5⟩ := ih
            (gLen + min bytes.length ((growIf p gLen b).len - gLen))
            ⟨writeAt (growIf p gLen b).storage gLen
                (bytes.take ((growIf p gLen b).len - gLen)),
              (growIf p gLen b).len⟩
            o2 hgl2 (by simpa [Buf.capacity, hstor] using hb1cap) hrec
          have htake2 : (Buf.mk (writeAt (growIf p gLen b).storage gLen
                (bytes.take ((growIf p gLen b).len - gLen)))
                ((growIf p gLen b).len)).storage.take
                (gLen + min bytes.length ((growIf p gLen b).len - gLen)) =
              b.storage.take gLen ++
                (bytes.take ((growIf p gLen b).len - gLen)).map some := by
            show (writeAt (growIf p gLen b).storage gLen
                (bytes.take ((growIf p gLen b).len - gLen))).take
                (gLen + min bytes.length ((growIf p gLen b).len - gLen)) = _
            rw [← hwlen, writeAt_take_full _ _ _ hfit, hb1take]
          refine ⟨?_, ?_, ih3, ?_, ?_⟩
          · show o2.buf.len =
              gLen + (bytes.take ((growIf p gLen b).len - gLen) ++
                o2.delivered).length
            rw [List.length_append, hwlen]
            omega
          · show o2.buf.storage.take o2.buf.len =
              b.storage.take gLen ++
                (bytes.take ((growIf p gLen b).len - gLen) ++
                  o2.delivered).map some
            rw [ih2, htake2, List.map_append, List.append_assoc]
          · show b.capacity ≤ o2.buf.capacity
            calc b.capacity ≤ (growIf p gLen b).capacity := hb1mono
              _ = Buf.capacity ⟨writeAt (growIf p gLen b).storage gLen
                    (bytes.take ((growIf p gLen b).len - gLen)),
                  (growIf p gLen b).len⟩ := by
                    simp [Buf.capacity, hstor]
              _ ≤ o2.buf.capacity := ih4
          · intro hcl
            replace hcl : (decide ((growIf p gLen b).len - gLen < bytes.length) ||
                o2.clamped) = false := hcl
            obtain ⟨hcl1, hcl2⟩ := Bool.or_eq_false_iff.mp hcl
            simp only [decide_eq_false_iff_not, Nat.not_lt] at hcl1
            have hwb : bytes.take ((growIf p gLen b).len - gLen) = bytes :=
              List.take_of_length_le hcl1
            have hbne : bytes ≠ [] := by
              intro hnil
              subst hnil
              simp at hn
            obtain ⟨x, xs, hx⟩ := List.exists_cons_of_ne_nil hbne
            obtain ⟨ih5a, ih5b⟩ := ih5 hcl2
            subst hx
            refine ⟨?_, ?_⟩
            · simpa [pollSpec] using ih5a
            · simp only [deliveredPoll, hwb, ih5b]
              simp


/-! ### Composing single polls into a driven run -/

theorem pollSpec_pending_compose (events rest2 : List ReadOutcome)
    (h : pollSpec events = some (RunResult.pending, rest2)) :
    driveSpec events = driveSpec rest2 ∧
    deliveredDrive events = deliveredPoll events ++ deliveredDrive rest2 := by
  induction events with
  | nil => simp [pollSpec] at h
  | cons ev rest ih =>
    cases ev with
    | chunk bytes =>
      cases bytes with
      | nil => simp [pollSpec] at h
      | cons x xs =>
        rw [show pollSpec (ReadOutcome.chunk (x :: xs) :: rest) = pollSpec rest
          from rfl] at h
        obtain ⟨ih1, ih2⟩ := ih h
        exact ⟨ih1, by simp [deliveredDrive, deliveredPoll, ih2]⟩
    | pending =>
      simp only [pollSpec, Option.some.injEq, Prod.mk.injEq, true_and] at h
      subst h
      exact ⟨rfl, by simp [deliveredDrive, deliveredPoll]⟩
    | err e => simp [pollSpec] at h
    | unwind => simp [pollSpec] at h

theorem pollSpec_final_compose (events rest2 : List ReadOutcome) (r : RunResult)
    (h : pollSpec events = some (r, rest2)) (hne : r ≠ RunResult.pending) :
    driveSpec events = some r ∧ deliveredDrive events = deliveredPoll events := by
  induction events with
  | nil => simp [pollSpec] at h
  | cons ev rest ih =>
    cases ev with
    | chunk bytes =>
      cases bytes with
      | nil =>
        simp only [pollSpec, Option.some.injEq, Prod.mk.injEq] at h
        exact ⟨by simp [driveSpec, h.1], by simp [deliveredDrive, deliveredPoll]⟩
      | cons x xs =>
        rw [show pollSpec (ReadOutcome.chunk (x :: xs) :: rest) = pollSpec rest
          from rfl] at h
        obtain ⟨ih1, ih2⟩ := ih h
        exact ⟨ih1, by simp [deliveredDrive, deliveredPoll, ih2]⟩
    | pending =>
      simp only [pollSpec, Option.some.injEq, Prod.mk.injEq] at h
      exact absurd h.1.symm hne
    | err e =>
      simp only [pollSpec, Option.some.injEq, Prod.mk.injEq] at h
      exact ⟨by simp [driveSpec, h.1], by simp [deliveredDrive, deliveredPoll]⟩
    | unwind =>
      simp only [pollSpec, Option.some.injEq, Prod.mk.injEq] at h
      exact ⟨by simp [driveSpec, h.1], by simp [deliveredDrive, deliveredPoll]⟩

theorem drive_succ_eq (fuel : Nat) (rd : Reader) (b : Buf) (o : RunOut)
    (hint : read_to_end_internal rd b = some o) :
    drive (Nat.succ fuel) rd b =
      match o.result with
      | RunResult.pending =>
        match drive fuel ⟨o.rest, rd.preinit⟩ o.buf with
        | none => none
        | some o2 =>
          some ⟨o2.result, o2.buf, o2.rest, o.grows + o2.grows,
            o.clamped || o2.clamped, o.delivered ++ o2.delivered⟩
      | _ => some o := by
  simp only [drive, hint]

/-- Master invariant of a driven run (`poll` called repeatedly until a
non-pending result). -/
theorem drive_spec_thm (fuel : Nat) :
    ∀ (rd : Reader) (b : Buf) (out : RunOut),
      b.len ≤ b.capacity →
      drive fuel rd b = some out →
      out.buf.len = b.len + out.delivered.length ∧
      out.buf.storage.take out.buf.len =
        b.storage.take b.len ++ out.delivered.map some ∧
      out.buf.len ≤ out.buf.capacity ∧
      b.capacity ≤ out.buf.capacity ∧
      (out.clamped = false →
        driveSpec rd.events = some out.result ∧
        out.delivered = deliveredDrive rd.events) ∧
      out.result ≠ RunResult.pending := by
  induction fuel with
  | zero =>
    intro rd b out hwf h
    simp [drive] at h
  | succ fuel ih =>
    intro rd b out hwf h
    cases hint : read_to_end_internal rd b with
    | none =>
      rw [show drive (Nat.succ fuel) rd b = none from by simp only [drive, hint]] at h
      exact Option.noConfusion h
    | some o =>
      rw [drive_succ_eq fuel rd b o hint] at h
      obtain ⟨l1, l2, l3, l4, l5⟩ :=
        readToEndLoop_spec rd.preinit rd.events b.len b o (Nat.le_refl _) hwf hint
      cases hr : o.result with
      | pending =>
        rw [hr] at h
        cases hdrv : drive fuel ⟨o.rest, rd.preinit⟩ o.buf with
        | none => rw [hdrv] at h; simp at h
        | some o2 =>
          rw [hdrv] at h
          injection h with h
          subst h
          obtain ⟨d1, d2, d3, d4, d5, d6⟩ := ih ⟨o.rest, rd.preinit⟩ o.buf o2 l3 hdrv
          refine ⟨?_, ?_, d3, le_trans l4 d4, ?_, d6⟩
          · show o2.buf.len = b.len + (o.delivered ++ o2.delivered).length
            rw [List.length_append]
            omega
          · show o2.buf.storage.take o2.buf.len =
              b.storage.take b.len ++ (o.delivered ++ o2.delivered).map some
            rw [d2, l2, List.map_append, List.append_assoc]
          · intro hcl
            replace hcl : (o.clamped || o2.clamped) = false := hcl
            obtain ⟨hcl1, hcl2⟩ := Bool.or_eq_false_iff.mp hcl
            obtain ⟨p1, p2⟩ := l5 hcl1
            rw [hr] at p1
            obtain ⟨q1, q2⟩ := pollSpec_pending_compose rd.events o.rest p1
            obtain ⟨r1, r2⟩ := d5 hcl2
            refine ⟨?_, ?_⟩
            · show driveSpec rd.events = some o2.result
              rw [q1]; exact r1
            · show o.delivered ++ o2.delivered = deliveredDrive rd.events
              rw [q2, p2, r2]
      | ok =>
        rw [hr] at h
        injection h with h
        subst h
        refine ⟨l1, l2, l3, l4, ?_, by rw [hr]; intro hx; exact RunResult.noConfusion hx⟩
        intro hcl
        obtain ⟨p1, p2⟩ := l5 hcl
        obtain ⟨q1, q2⟩ := pollSpec_final_compose rd.events o.rest o.result p1
          (by rw [hr]; intro hx; exact RunResult.noConfusion hx)
        exact ⟨q1, by rw [p2, q2]⟩
      | errored e =>
        rw [hr] at h
        injection h with h
        subst h
        refine ⟨l1, l2, l3, l4, ?_, by rw [hr]; intro hx; exact RunResult.noConfusion hx⟩
        intro hcl
        obtain ⟨p1, p2⟩ := l5 hcl
        obtain ⟨q1, q2⟩ := pollSpec_final_compose rd.events o.rest o.result p1
          (by rw [hr]; intro hx; exact RunResult.noConfusion hx)
        exact ⟨q1, by rw [p2, q2]⟩
      | unwound =>
        rw [hr] at h
        injection h with h
        subst h
        refine ⟨l1, l2, l3, l4, ?_, by rw [hr]; intro hx; exact RunResult.noConfusion hx⟩
        intro hcl
        obtain ⟨p1, p2⟩ := l5 hcl
        obtain ⟨q1, q2⟩ := pollSpec_final_compose rd.events o.rest o.result p1
          (by rw [hr]; intro hx; exact RunResult.noConfusion hx)
        exact ⟨q1, by rw [p2, q2]⟩

/-! ### Capacity growth: doubling gives logarithmically many reservations -/

/-- Any loop iteration is either an exit (with the guard-truncated buffer)
or a successful positive read continuing the loop. -/
theorem loopStep_cases (p : Bool) (ev : ReadOutcome) (gLen : Nat) (b : Buf) :
    (∃ r cl, loopStep p ev gLen b =
      StepOut.exit r ⟨(growIf p gLen b).storage, gLen⟩
        (decide (b.capacity < (growIf p gLen b).capacity)) cl) ∨
    (∃ bytes, ev = ReadOutcome.chunk bytes ∧
      min bytes.length ((growIf p gLen b).len - gLen) ≠ 0 ∧
      loopStep p ev gLen b =
        StepOut.cont (gLen + min bytes.length ((growIf p gLen b).len - gLen))
          ⟨writeAt (growIf p gLen b).storage gLen
              (bytes.take ((growIf p gLen b).len - gLen)),
            (growIf p gLen b).len⟩
          (bytes.take ((growIf p gLen b).len - gLen))
          (decide (b.capacity < (growIf p gLen b).capacity))
          (decide ((growIf p gLen b).len - gLen < bytes.length))) := by
  cases ev with
  | pending => exact Or.inl ⟨_, _, loopStep_pending p gLen b⟩
  | unwind => exact Or.inl ⟨_, _, loopStep_unwind p gLen b⟩
  | err e => exact Or.inl ⟨_, _, loopStep_err p e gLen b⟩
  | chunk bytes =>
    by_cases hn : min bytes.length ((growIf p gLen b).len - gLen) = 0
    · exact Or.inl ⟨_, _, loopStep_chunk_eof p bytes gLen b hn⟩
    · exact Or.inr ⟨bytes, rfl, hn, loopStep_chunk_cont p bytes gLen b hn⟩

/-- A reservation either leaves the capacity unchanged, or — when the
committed length is within 32 bytes of the capacity — exactly doubles it. -/
theorem growIf_cap_cases (p : Bool) (gLen : Nat) (b : Buf)
    (h1 : gLen ≤ b.len) (h2 : b.len ≤ b.capacity) (hge : 32 ≤ b.capacity) :
    ((growIf p gLen b).capacity = b.capacity ∧
      ¬ b.capacity < (growIf p gLen b).capacity) ∨
    ((growIf p gLen b).capacity = 2 * b.capacity ∧
      b.capacity < (growIf p gLen b).capacity ∧ b.capacity ≤ gLen + 31) := by
  unfold growIf
  split
  · rename_i heq
    rw [growBuf_capacity p gLen b h1 h2]
    unfold reserveCap
    split
    · exact Or.inl ⟨rfl, Nat.lt_irrefl _⟩
    · rename_i hlt
      have hmax : max (2 * b.capacity) (b.len + 32) = 2 * b.capacity := by
        apply Nat.max_eq_left
        omega
      rw [hmax]
      exact Or.inr ⟨rfl, by omega, by omega⟩
  · exact Or.inl ⟨rfl, Nat.lt_irrefl _⟩

/-- Growth invariant of the loop from a capacity that is a power-of-two
multiple of 32: every counted reservation doubles the capacity, and —
whenever at least one happened — the final capacity is bounded by twice the
final committed length plus a constant. -/
theorem readToEndLoop_growth (p : Bool) (events : List ReadOutcome) :
    ∀ (gLen : Nat) (b : Buf) (out : RunOut) (k : Nat),
      gLen ≤ b.len → b.len ≤ b.capacity → b.capacity = 32 * 2 ^ k →
      readToEndLoop p events gLen b = some out →
      out.buf.capacity = 32 * 2 ^ (k + out.grows) ∧
      gLen ≤ out.buf.len ∧
      out.buf.len ≤ out.buf.capacity ∧
      (1 ≤ out.grows → out.buf.capacity ≤ 2 * (out.buf.len + 31)) := by
  induction events with
  | nil =>
    intro gLen b out k h1 h2 hk h
    simp [readToEndLoop] at h
  | cons ev rest ih =>
    intro gLen b out k h1 h2 hk h
    have hge : 32 ≤ b.capacity := by
      rw [hk]
      have h20 : 1 ≤ 2 ^ k := Nat.one_le_two_pow
      omega
    have hb1len : gLen ≤ (growIf p gLen b).len := growIf_le_len p gLen b h1
    have hb1cap : (growIf p gLen b).len ≤ (growIf p gLen b).capacity :=
      growIf_len_le_cap p gLen b h1 h2
    rcases loopStep_cases p ev gLen b with ⟨r, cl, hstep⟩ | ⟨bytes, hev, hn, hstep⟩
    · rw [readToEndLoop_cons_exit p ev rest gLen b _ _ _ _ hstep] at h
      injection h with h
      subst h
      rcases growIf_cap_cases p gLen b h1 h2 hge with ⟨e1, e2⟩ | ⟨e1, e2, e3⟩
      · have hgc : (if decide (b.capacity < (growIf p gLen b).capacity)
            then (1 : Nat) else 0) = 0 := by simp [e2]
        refine ⟨?_, Nat.le_refl _, le_trans hb1len hb1cap, ?_⟩
        · show (growIf p gLen b).capacity = 32 * 2 ^ (k +
            (if decide (b.capacity < (growIf p gLen b).capacity) then 1 else 0))
          rw [hgc, Nat.add_zero, e1, hk]
        · show 1 ≤ (if decide (b.capacity < (growIf p gLen b).capacity)
              then 1 else 0) → _
          rw [hgc]
          intro hx
          exact absurd hx (by norm_num)
      · have hgc : (if decide (b.capacity < (growIf p gLen b).capacity)
            then (1 : Nat) else 0) = 1 := by simp [e2]
        refine ⟨?_, Nat.le_refl _, le_trans hb1len hb1cap, ?_⟩
        · show (growIf p gLen b).capacity = 32 * 2 ^ (k +
            (if decide (b.capacity < (growIf p gLen b).capacity) then 1 else 0))
          rw [hgc, e1, hk, pow_succ]
          ring
        · intro _
          show Buf.capacity ⟨(growIf p gLen b).storage, gLen⟩ ≤ 2 * (gLen + 31)
          have : Buf.capacity ⟨(growIf p gLen b).storage, gLen⟩ =
              (growIf p gLen b).capacity := rfl
          rw [this, e1]
          omega
    · subst hev
      rw [readToEndLoop_cons_cont p _ rest gLen b _ _ _ _ _ hstep] at h
      cases hrec : readToEndLoop p rest
          (gLen + min bytes.length ((growIf p gLen b).len - gLen))
          ⟨writeAt (growIf p gLen b).storage gLen
              (bytes.take ((growIf p gLen b).len - gLen)),
            (growIf p gLen b).len⟩ with
      | none => rw [hrec] at h; simp at h
      | some o2 =>
        rw [hrec] at h
        injection h with h
        subst h
        have hwlen : (bytes.take ((growIf p gLen b).len - gLen)).length =
            min bytes.length ((growIf p gLen b).len - gLen) := by
          rw [List.length_take, Nat.min_comm]
        have hgl2 : gLen + min bytes.length ((growIf p gLen b).len - gLen) ≤
            (growIf p gLen b).len := by
          have := Nat.min_le_right bytes.length ((growIf p gLen b).len - gLen)
          omega
        have hfit : gLen + (bytes.take ((growIf p gLen b).len - gLen)).length ≤
            (growIf p gLen b).storage.length := by
          rw [hwlen]
          exact le_trans hgl2 hb1cap
        have hstor : (writeAt (growIf p gLen b).storage gLen
            (bytes.take ((growIf p gLen b).len - gLen))).length =
            (growIf p gLen b).storage.length :=
          writeAt_length _ _ _ hfit
        have hcap2 : Buf.capacity ⟨writeAt (growIf p gLen b).storage gLen
            (bytes.take ((growIf p gLen b).len - gLen)),
            (growIf p gLen b).len⟩ = (growIf p gLen b).capacity := hstor
        rcases growIf_cap_cases p gLen b h1 h2 hge with ⟨e1, e2⟩ | ⟨e1, e2, e3⟩
        · have hgc : (if decide (b.capacity < (growIf p gLen b).capacity)
              then (1 : Nat) else 0) = 0 := by simp [e2]
          obtain ⟨i1, i2, i3, i4⟩ := ih
            (gLen + min bytes.length ((growIf p gLen b).len - gLen))
            ⟨writeAt (growIf p gLen b).storage gLen
                (bytes.take ((growIf p gLen b).len - gLen)),
              (growIf p gLen b).len⟩
            o2 k hgl2 (by rw [hcap2]; exact hb1cap)
            (by rw [hcap2, e1]; exact hk) hrec
          refine ⟨?_, ?_, i3, ?_⟩
          · show o2.buf.capacity = 32 * 2 ^ (k +
              ((if decide (b.capacity < (growIf p gLen b).capacity)
                then 1 else 0) + o2.grows))
            rw [hgc, Nat.zero_add, i1]
          · show gLen ≤ o2.buf.len
            omega
          · show 1 ≤ ((if decide (b.capacity < (growIf p gLen b).capacity)
                then 1 else 0) + o2.grows) → _
            rw [hgc, Nat.zero_add]
            exact i4
        · have hgc : (if decide (b.capacity < (growIf p gLen b).capacity)
              then (1 : Nat) else 0) = 1 := by simp [e2]
          have hk1 : (growIf p gLen b).capacity = 32 * 2 ^ (k + 1) := by
            rw [e1, hk, pow_succ]
            ring
          obtain ⟨i1, i2, i3, i4⟩ := ih
            (gLen + min bytes.length ((growIf p gLen b).len - gLen))
            ⟨writeAt (growIf p gLen b).storage gLen
                (bytes.take ((growIf p gLen b).len - gLen)),
              (growIf p gLen b).len⟩
            o2 (k + 1) hgl2 (by rw [hcap2]; exact hb1cap)
            (by rw [hcap2]; exact hk1) hrec
          refine ⟨?_, ?_, i3, ?_⟩
          · show o2.buf.capacity = 32 * 2 ^ (k +
              ((if decide (b.capacity < (growIf p gLen b).capacity)
                then 1 else 0) + o2.grows))
            rw [hgc, i1, show k + 1 + o2.grows = k + (1 + o2.grows) from by omega]
          · show gLen ≤ o2.buf.len
            omega
          · intro _
            show o2.buf.capacity ≤ 2 * (o2.buf.len + 31)
            by_cases ho2 : 1 ≤ o2.grows
            · exact i4 ho2
            · have hz : o2.grows = 0 := by omega
              rw [i1, hz, Nat.add_zero, ← hk1, e1]
              omega

/-- Growth facts for a single poll starting from a fresh empty vector:
the very first iteration reserves (0 becomes 32), and afterwards every
counted reservation doubles. -/
theorem readToEndLoop_growth_empty (p : Bool) (events : List ReadOutcome)
    (out : RunOut) (h : readToEndLoop p events 0 ⟨[], 0⟩ = some out) :
    1 ≤ out.grows ∧
    out.buf.capacity = 32 * 2 ^ (out.grows - 1) ∧
    out.buf.len ≤ out.buf.capacity ∧
    (2 ≤ out.grows → out.buf.capacity ≤ 2 * (out.buf.len + 31)) := by
  have hcap1 : (growIf p 0 ⟨[], 0⟩).capacity = 32 := by cases p <;> rfl
  have hlen1 : (growIf p 0 ⟨[], 0⟩).len = 32 := by cases p <;> rfl
  have hgrew : decide (Buf.capacity ⟨[], 0⟩ < (growIf p 0 ⟨[], 0⟩).capacity) =
      true := by cases p <;> rfl
  cases events with
  | nil => simp [readToEndLoop] at h
  | cons ev rest =>
    rcases loopStep_cases p ev 0 ⟨[], 0⟩ with ⟨r, cl, hstep⟩ | ⟨bytes, hev, hn, hstep⟩
    · rw [readToEndLoop_cons_exit p ev rest 0 ⟨[], 0⟩ _ _ _ _ hstep] at h
      injection h with h
      subst h
      refine ⟨?_, ?_, Nat.zero_le _, ?_⟩
      · show 1 ≤ (if decide (Buf.capacity ⟨[], 0⟩ <
            (growIf p 0 ⟨[], 0⟩).capacity) then 1 else 0)
        rw [hgrew]
        simp
      · show (growIf p 0 ⟨[], 0⟩).capacity = 32 * 2 ^
          ((if decide (Buf.capacity ⟨[], 0⟩ <
            (growIf p 0 ⟨[], 0⟩).capacity) then 1 else 0) - 1)
        rw [hgrew, hcap1]
        simp
      · show 2 ≤ (if decide (Buf.capacity ⟨[], 0⟩ <
            (growIf p 0 ⟨[], 0⟩).capacity) then 1 else 0) → _
        rw [hgrew]
        intro hx
        exact absurd hx (by norm_num)
    · subst hev
      rw [readToEndLoop_cons_cont p _ rest 0 ⟨[], 0⟩ _ _ _ _ _ hstep] at h
      cases hrec : readToEndLoop p rest
          (0 + min bytes.length ((growIf p 0 ⟨[], 0⟩).len - 0))
          ⟨writeAt (growIf p 0 ⟨[], 0⟩).storage 0
              (bytes.take ((growIf p 0 ⟨[], 0⟩).len - 0)),
            (growIf p 0 ⟨[], 0⟩).len⟩ with
      | none => rw [hrec] at h; simp at h
      | some o2 =>
        rw [hrec] at h
        injection h with h
        subst h
        have hwlen : (bytes.take ((growIf p 0 ⟨[], 0⟩).len - 0)).length =
            min bytes.length ((growIf p 0 ⟨[], 0⟩).len - 0) := by
          rw [List.length_take, Nat.min_comm]
        have hfit : 0 + (bytes.take ((growIf p 0 ⟨[], 0⟩).len - 0)).length ≤
            (growIf p 0 ⟨[], 0⟩).storage.length := by
          rw [hwlen]
          have h1 := Nat.min_le_right bytes.length ((growIf p 0 ⟨[], 0⟩).len - 0)
          have h2 : (growIf p 0 ⟨[], 0⟩).storage.length = 32 := hcap1
          omega
        have hcap2 : Buf.capacity ⟨writeAt (growIf p 0 ⟨[], 0⟩).storage 0
            (bytes.take ((growIf p 0 ⟨[], 0⟩).len - 0)),
            (growIf p 0 ⟨[], 0⟩).len⟩ = (growIf p 0 ⟨[], 0⟩).capacity :=
          writeAt_length _ _ _ hfit
        obtain ⟨i1, i2, i3, i4⟩ := readToEndLoop_growth p rest
          (0 + min bytes.length ((growIf p 0 ⟨[], 0⟩).len - 0))
          ⟨writeAt (growIf p 0 ⟨[], 0⟩).storage 0
              (bytes.take ((growIf p 0 ⟨[], 0⟩).len - 0)),
            (growIf p 0 ⟨[], 0⟩).len⟩
          o2 0
          (by have h1 := Nat.min_le_right bytes.length ((growIf p 0 ⟨[], 0⟩).len - 0)
              show 0 + min bytes.length ((growIf p 0 ⟨[], 0⟩).len - 0) ≤
                (growIf p 0 ⟨[], 0⟩).len
              omega)
          (by rw [hcap2, hcap1, hlen1])
          (by rw [hcap2, hcap1]; norm_num)
          hrec
        refine ⟨?_, ?_, i3, ?_⟩
        · show 1 ≤ (if decide (Buf.capacity ⟨[], 0⟩ <
              (growIf p 0 ⟨[], 0⟩).capacity) then 1 else 0) + o2.grows
          rw [hgrew]
          simp
        · show o2.buf.capacity = 32 * 2 ^
            (((if decide (Buf.capacity ⟨[], 0⟩ <
              (growIf p 0 ⟨[], 0⟩).capacity) then 1 else 0) + o2.grows) - 1)
          rw [hgrew, i1]
          simp
        · show 2 ≤ (if decide (Buf.capacity ⟨[], 0⟩ <
              (growIf p 0 ⟨[], 0⟩).capacity) then 1 else 0) + o2.grows → _
          rw [hgrew]
          intro hx
          have hx2 : 1 ≤ o2.grows := by
            simp at hx
            omega
          exact i4 hx2

/-- Growth invariant of a driven run from a power-of-two-times-32 capacity. -/
theorem drive_growth (fuel : Nat) :
    ∀ (rd : Reader) (b : Buf) (out : RunOut) (k : Nat),
      b.len ≤ b.capacity → b.capacity = 32 * 2 ^ k →
      drive fuel rd b = some out →
      out.buf.capacity = 32 * 2 ^ (k + out.grows) ∧
      b.len ≤ out.buf.len ∧
      out.buf.len ≤ out.buf.capacity ∧
      (1 ≤ out.grows → out.buf.capacity ≤ 2 * (out.buf.len + 31)) := by
  induction fuel with
  | zero =>
    intro rd b out k hwf hk h
    simp [drive] at h
  | succ fuel ih =>
    intro rd b out k hwf hk h
    cases hint : read_to_end_internal rd b with
    | none =>
      rw [show drive (Nat.succ fuel) rd b = none from by simp only [drive, hint]] at h
      exact Option.noConfusion h
    | some o =>
      rw [drive_succ_eq fuel rd b o hint] at h
      obtain ⟨g1, g2, g3, g4⟩ :=
        readToEndLoop_growth rd.preinit rd.events b.len b o k (Nat.le_refl _) hwf hk hint
      cases hr : o.result with
      | pending =>
        rw [hr] at h
        cases hdrv : drive fuel ⟨o.rest, rd.preinit⟩ o.buf with
        | none => rw [hdrv] at h; simp at h
        | some o2 =>
          rw [hdrv] at h
          injection h with h
          subst h
          obtain ⟨d1, d2, d3, d4⟩ :=
            ih ⟨o.rest, rd.preinit⟩ o.buf o2 (k + o.grows) g3 g1 hdrv
          refine ⟨?_, ?_, d3, ?_⟩
          · show o2.buf.capacity = 32 * 2 ^ (k + (o.grows + o2.grows))
            rw [d1, show k + o.grows + o2.grows = k + (o.grows + o2.grows)
              from by omega]
          · show b.len ≤ o2.buf.len
            omega
          · intro hge1
            replace hge1 : 1 ≤ o.grows + o2.grows := hge1
            show o2.buf.capacity ≤ 2 * (o2.buf.len + 31)
            by_cases ho2 : 1 ≤ o2.grows
            · exact d4 ho2
            · have hz : o2.grows = 0 := by omega
              have ho1 : 1 ≤ o.grows := by omega
              have hob := g4 ho1
              have hcapeq : o2.buf.capacity = o.buf.capacity := by
                rw [d1, hz, Nat.add_zero, g1]
              rw [hcapeq]
              calc o.buf.capacity ≤ 2 * (o.buf.len + 31) := hob
                _ ≤ 2 * (o2.buf.len + 31) := by omega
      | ok =>
        rw [hr] at h
        injection h with h
        subst h
        exact ⟨g1, g2, g3, g4⟩
      | errored e =>
        rw [hr] at h
        injection h with h
        subst h
        exact ⟨g1, g2, g3, g4⟩
      | unwound =>
        rw [hr] at h
        injection h with h
        subst h
        exact ⟨g1, g2, g3, g4⟩

/-- Growth facts for a driven run from a fresh empty vector. -/
theorem drive_growth_empty (fuel : Nat) (rd : Reader) (out : RunOut)
    (h : drive fuel rd ⟨[], 0⟩ = some out) :
    1 ≤ out.grows ∧
    out.buf.capacity = 32 * 2 ^ (out.grows - 1) ∧
    (2 ≤ out.grows → out.buf.capacity ≤ 2 * (out.buf.len + 31)) := by
  cases fuel with
  | zero => simp [drive] at h
  | succ fuel =>
    cases hint : read_to_end_internal rd ⟨[], 0⟩ with
    | none =>
      rw [show drive (Nat.succ fuel) rd ⟨[], 0⟩ = none
        from by simp only [drive, hint]] at h
      exact Option.noConfusion h
    | some o =>
      rw [drive_succ_eq fuel rd ⟨[], 0⟩ o hint] at h
      obtain ⟨g0, g1, g3, g4⟩ :=
        readToEndLoop_growth_empty rd.preinit rd.events o hint
      cases hr : o.result with
      | pending =>
        rw [hr] at h
        cases hdrv : drive fuel ⟨o.rest, rd.preinit⟩ o.buf with
        | none => rw [hdrv] at h; simp at h
        | some o2 =>
          rw [hdrv] at h
          injection h with h
          subst h
          obtain ⟨d1, d2, d3, d4⟩ :=
            drive_growth fuel ⟨o.rest, rd.preinit⟩ o.buf o2 (o.grows - 1) g3 g1 hdrv
          refine ⟨?_, ?_, ?_⟩
          · show 1 ≤ o.grows + o2.grows
            omega
          · show o2.buf.capacity = 32 * 2 ^ (o.grows + o2.grows - 1)
            rw [d1, show o.grows - 1 + o2.grows = o.grows + o2.grows - 1
              from by omega]
          · intro h2
            replace h2 : 2 ≤ o.grows + o2.grows := h2
            show o2.buf.capacity ≤ 2 * (o2.buf.len + 31)
            by_cases ho2 : 1 ≤ o2.grows
            · exact d4 ho2
            · have hz : o2.grows = 0 := by omega
              have ho1 : 2 ≤ o.grows := by omega
              have hob := g4 ho1
              have hcapeq : o2.buf.capacity = o.buf.capacity := by
                rw [d1, hz, Nat.add_zero, g1]
              rw [hcapeq]
              calc o.buf.capacity ≤ 2 * (o.buf.len + 31) := hob
                _ ≤ 2 * (o2.buf.len + 31) := by omega
      | ok =>
        rw [hr] at h
        injection h with h
        subst h
        exact ⟨g0, g1, g4⟩
      | errored e =>
        rw [hr] at h
        injection h with h
        subst h
        exact ⟨g0, g1, g4⟩
      | unwound =>
        rw [hr] at h
        injection h with h
        subst h
        exact ⟨g0, g1, g4⟩

/-! ### Helper: the committed region stays initialized -/

theorem initialized_of_append (b0 : Buf) (pre : List Cell) (ds : List Byte)
    (hpre : ∀ c ∈ pre, c.isSome = true)
    (hv : b0.visible = pre ++ ds.map some) :
    b0.initialized := by
  intro c hc
  rw [hv] at hc
  rcases List.mem_append.mp hc with h1 | h2
  · exact hpre c h1
  · obtain ⟨a, _, ha⟩ := List.mem_map.mp h2
    rw [← ha]
    rfl

/-! ### The claims -/

/-- Claim C1: for every starting buffer and every point at which
`read_to_end_internal` returns control to the caller (pending, success, or
error), the buffer's length equals its original length plus the total bytes
committed by the source so far, and no byte within that length is
uninitialized (the guard's drop forces the length back to the committed
length on every exit). -/
theorem claim1_return_length_initialized (rd : Reader) (b : Buf) (out : RunOut)
    (hwf : b.wf) (hinit : b.initialized)
    (hrun : read_to_end_internal rd b = some out) :
    out.buf.len = b.len + out.delivered.length ∧
    out.buf.visible = b.visible ++ out.delivered.map some ∧
    out.buf.initialized := by
  obtain ⟨l1, l2, l3, l4, l5⟩ :=
    readToEndLoop_spec rd.preinit rd.events b.len b out (Nat.le_refl _) hwf hrun
  exact ⟨l1, l2, initialized_of_append out.buf b.visible out.delivered hinit l2⟩

/-- Claim C2: for every finite trace of source outcomes driven to a terminal
result via repeated polls, the final buffer content equals the original
content followed by the concatenation of all successfully read chunks, in
the order the source produced them (assuming, per the `AsyncRead` contract,
that no chunk exceeded the slice offered to the reader). -/
theorem claim2_final_content (fuel : Nat) (rd : Reader) (b : Buf) (out : RunOut)
    (hwf : b.wf) (hrun : drive fuel rd b = some out)
    (hterm : out.result = RunResult.ok ∨ ∃ e, out.result = RunResult.errored e)
    (hfit : out.clamped = false) :
    out.buf.visible = b.visible ++ (deliveredDrive rd.events).map some := by
  obtain ⟨m1, m2, m3, m4, m5, m6⟩ := drive_spec_thm fuel rd b out hwf hrun
  obtain ⟨s1, s2⟩ := m5 hfit
  show out.buf.storage.take out.buf.len =
    b.visible ++ (deliveredDrive rd.events).map some
  rw [m2, ← s2]
  rfl

/-- Claim C3: when the trace ends in an error after committing its chunks,
the driven operation terminates with that error and the final buffer length
is exactly the original length plus the number of committed bytes — never
longer (no uninitialized tail) and never shorter. -/
theorem claim3_error_exact_length (fuel : Nat) (rd : Reader) (b : Buf)
    (out : RunOut) (e : Nat) (hwf : b.wf) (hinit : b.initialized)
    (hrun : drive fuel rd b = some out)
    (hfit : out.clamped = false)
    (htrace : driveSpec rd.events = some (RunResult.errored e)) :
    out.result = RunResult.errored e ∧
    out.buf.len = b.len + (deliveredDrive rd.events).length ∧
    out.buf.initialized := by
  obtain ⟨m1, m2, m3, m4, m5, m6⟩ := drive_spec_thm fuel rd b out hwf hrun
  obtain ⟨s1, s2⟩ := m5 hfit
  refine ⟨?_, ?_, ?_⟩
  · exact Option.some.inj (s1.symm.trans htrace)
  · rw [← s2]
    exact m1
  · exact initialized_of_append out.buf b.visible out.delivered hinit m2

/-- Claim C4: the driven operation's result is exactly the one the trace
dictates: the first error ends the run and is carried verbatim (the model
introduces no result other than the trace's own terminating outcome). -/
theorem claim4_error_verbatim (fuel : Nat) (rd : Reader) (b : Buf)
    (out : RunOut) (hwf : b.wf) (hrun : drive fuel rd b = some out)
    (hfit : out.clamped = false) :
    driveSpec rd.events = some out.result :=
  ((drive_spec_thm fuel rd b out hwf hrun).2.2.2.2.1 hfit).1

/-- Claim C5: when `read_to_end_internal` returns pending, it does so at the
first suspend signal with no further read attempt (the unconsumed events are
exactly those after that signal), the committed length is unchanged by the
suspension, and the guard has truncated the buffer to the committed length so
no uninitialized tail is visible while suspended. -/
theorem claim5_pending_immediate (rd : Reader) (b : Buf) (out : RunOut)
    (hwf : b.wf) (hinit : b.initialized)
    (hrun : read_to_end_internal rd b = some out)
    (hres : out.result = RunResult.pending)
    (hfit : out.clamped = false) :
    pollSpec rd.events = some (RunResult.pending, out.rest) ∧
    out.buf.len = b.len + out.delivered.length ∧
    out.buf.visible = b.visible ++ out.delivered.map some ∧
    out.buf.initialized := by
  obtain ⟨l1, l2, l3, l4, l5⟩ :=
    readToEndLoop_spec rd.preinit rd.events b.len b out (Nat.le_refl _) hwf hrun
  obtain ⟨s1, s2⟩ := l5 hfit
  refine ⟨?_, l1, l2, initialized_of_append out.buf b.visible out.delivered hinit l2⟩
  rw [← hres]
  exact s1

/-- Claim C6: before a read into newly exposed spare capacity, the exposed
region is zero-filled exactly when the reader requires pre-initialization;
with the trust flag (`preinit = false`) the zero-fill is skipped entirely and
the storage is left as it was, extended only by uninitialized cells. -/
theorem claim6_zero_fill_iff_preinit (p : Bool) (gLen : Nat) (b : Buf)
    (h1 : gLen ≤ b.len) (hwf : b.wf) :
    (p = true → (growBuf p gLen b).storage.drop gLen =
      List.replicate ((growBuf p gLen b).capacity - gLen) (some 0)) ∧
    (p = false → (growBuf p gLen b).storage =
      b.storage ++
        List.replicate ((growBuf p gLen b).capacity - b.capacity) none) := by
  constructor
  · intro hp
    subst hp
    exact growBuf_drop_zero gLen b h1 hwf
  · intro hp
    subst hp
    rw [growBuf_capacity false gLen b h1 hwf]
    exact growBuf_storage_skip gLen b

/-- Claim C7: when the reader's read attempt unwinds instead of returning,
the guard's truncation still runs while the unwind propagates, so the buffer
ends at exactly the committed length with no uninitialized byte visible. -/
theorem claim7_unwind_guard (rd : Reader) (b : Buf) (out : RunOut)
    (hwf : b.wf) (hinit : b.initialized)
    (hrun : read_to_end_internal rd b = some out)
    (hres : out.result = RunResult.unwound) :
    out.buf.len = b.len + out.delivered.length ∧
    out.buf.visible = b.visible ++ out.delivered.map some ∧
    out.buf.initialized := by
  obtain ⟨l1, l2, l3, l4, l5⟩ :=
    readToEndLoop_spec rd.preinit rd.events b.len b out (Nat.le_refl _) hwf hrun
  exact ⟨l1, l2, initialized_of_append out.buf b.visible out.delivered hinit l2⟩

/-- Claim C8: draining a payload of `S` bytes into an initially empty buffer
performs only logarithmically many capacity-enlarging reservations —
`grows ≤ log2 (S + 31) + 1` — because capacity doubles from a small initial
increment instead of growing by fixed-size extensions. -/
theorem claim8_log_reservations (fuel : Nat) (rd : Reader) (out : RunOut)
    (hrun : drive fuel rd ⟨[], 0⟩ = some out) :
    out.grows ≤ Nat.log 2 (out.delivered.length + 31) + 1 := by
  obtain ⟨g0, g1, g4⟩ := drive_growth_empty fuel rd out hrun
  obtain ⟨m1, _, _, _, _, _⟩ :=
    drive_spec_thm fuel rd ⟨[], 0⟩ out (Nat.le_refl 0) hrun
  replace m1 : out.buf.len = 0 + out.delivered.length := m1
  by_cases hg : 2 ≤ out.grows
  · have hb := g4 hg
    have hpoweq : 32 * 2 ^ (out.grows - 1) = 2 ^ (out.grows + 4) := by
      rw [show (32 : Nat) = 2 ^ 5 from rfl, ← pow_add]
      congr 1
      omega
    have hpow : 2 ^ (out.grows + 4) ≤ 2 * (out.delivered.length + 31) := by
      rw [← hpoweq, ← g1]
      omega
    have h2 : 2 * 2 ^ (out.grows + 3) = 2 ^ (out.grows + 4) := by
      rw [pow_succ]
      ring
    have hpow2 : 2 ^ (out.grows + 3) ≤ out.delivered.length + 31 := by omega
    have hlog := (Nat.pow_le_iff_le_log (by norm_num) (by omega)).mp hpow2
    omega
  · omega

/-- Claim C9: the committed length is monotonically non-decreasing across
loop iterations — a successful read of `N > 0` bytes advances it by exactly
`N` (the written bytes), no iteration decreases it — and it never exceeds the
buffer's capacity. -/
theorem claim9_committed_monotone (p : Bool) (ev : ReadOutcome) (gLen : Nat)
    (b : Buf) (h1 : gLen ≤ b.len) (hwf : b.wf) :
    (∀ gLen2 b2 w grew cl,
      loopStep p ev gLen b = StepOut.cont gLen2 b2 w grew cl →
      gLen2 = gLen + w.length ∧ gLen ≤ gLen2 ∧ w ≠ [] ∧ gLen2 ≤ b2.capacity) ∧
    (∀ r b2 grew cl,
      loopStep p ev gLen b = StepOut.exit r b2 grew cl →
      b2.len = gLen ∧ b2.len ≤ b2.capacity) := by
  have hb1len : gLen ≤ (growIf p gLen b).len := growIf_le_len p gLen b h1
  have hb1cap : (growIf p gLen b).len ≤ (growIf p gLen b).capacity :=
    growIf_len_le_cap p gLen b h1 hwf
  rcases loopStep_cases p ev gLen b with ⟨r0, cl0, hstep⟩ | ⟨bytes, hev, hn, hstep⟩
  · constructor
    · intro gLen2 b2 w grew cl hx
      rw [hstep] at hx
      exact StepOut.noConfusion hx
    · intro r b2 grew cl hx
      rw [hstep] at hx
      injection hx with hxr hxb hxg hxc
      subst hxb
      exact ⟨rfl, le_trans hb1len hb1cap⟩
  · have hwlen : (bytes.take ((growIf p gLen b).len - gLen)).length =
        min bytes.length ((growIf p gLen b).len - gLen) := by
      rw [List.length_take, Nat.min_comm]
    have hgl2 : gLen + min bytes.length ((growIf p gLen b).len - gLen) ≤
        (growIf p gLen b).len := by
      have := Nat.min_le_right bytes.length ((growIf p gLen b).len - gLen)
      omega
    have hfit : gLen + (bytes.take ((growIf p gLen b).len - gLen)).length ≤
        (growIf p gLen b).storage.length := by
      rw [hwlen]
      exact le_trans hgl2 hb1cap
    have hstor : (writeAt (growIf p gLen b).storage gLen
        (bytes.take ((growIf p gLen b).len - gLen))).length =
        (growIf p gLen b).storage.length :=
      writeAt_length _ _ _ hfit
    constructor
    · intro gLen2 b2 w grew cl hx
      rw [hstep] at hx
      injection hx with hxg hxb hxw hxgr hxc
      subst hxg
      subst hxb
      subst hxw
      refine ⟨by rw [hwlen], Nat.le_add_right _ _, ?_, ?_⟩
      · intro hnil
        rw [hnil] at hwlen
        simp at hwlen
        omega
      · show gLen + min bytes.length ((growIf p gLen b).len - gLen) ≤
          (writeAt (growIf p gLen b).storage gLen
            (bytes.take ((growIf p gLen b).len - gLen))).length
        rw [hstor]
        exact le_trans hgl2 hb1cap
    · intro r b2 grew cl hx
      rw [hstep] at hx
      exact StepOut.noConfusion hx

/-- Claim C10: every `poll` invocation begins with the growth step (the
guard truncated the length to the committed length on the previous exit, so
the no-spare-capacity condition holds on re-entry): the call makes the
capacity at least committed length + 32, and even a poll that immediately
suspends re-exposes the whole spare region and re-applies the reader's
initialization requirement to it — so capacity can grow although the
returned length is unchanged. -/
theorem claim10_reentry_regrow (rd : Reader) (b : Buf) (out : RunOut)
    (hwf : b.wf) (hrun : read_to_end_internal rd b = some out) :
    b.len + 32 ≤ out.buf.capacity ∧
    (∀ rest, rd.events = ReadOutcome.pending :: rest →
      out.buf.len = b.len ∧
      out.buf.storage = (growBuf rd.preinit b.len b).storage ∧
      (growBuf rd.preinit b.len b).capacity = reserveCap b.len 32 b.capacity ∧
      (rd.preinit = true →
        out.buf.storage.drop b.len =
          List.replicate (out.buf.capacity - b.len) (some 0))) := by
  have hgi : growIf rd.preinit b.len b = growBuf rd.preinit b.len b := if_pos rfl
  have hneed : b.len + 32 ≤ (growIf rd.preinit b.len b).capacity := by
    rw [hgi, growBuf_capacity rd.preinit b.len b (Nat.le_refl _) hwf]
    exact reserveCap_ge_needed b.len 32 b.capacity
  constructor
  · replace hrun : readToEndLoop rd.preinit rd.events b.len b = some out := hrun
    cases hevv : rd.events with
    | nil =>
      rw [hevv] at hrun
      simp [readToEndLoop] at hrun
    | cons ev rest =>
      rw [hevv] at hrun
      rcases loopStep_cases rd.preinit ev b.len b with
        ⟨r0, cl0, hstep⟩ | ⟨bytes, hev, hn, hstep⟩
      · rw [readToEndLoop_cons_exit rd.preinit ev rest b.len b _ _ _ _ hstep] at hrun
        injection hrun with hrun
        subst hrun
        exact hneed
      · rw [readToEndLoop_cons_cont rd.preinit ev rest b.len b _ _ _ _ _ hstep]
          at hrun
        cases hrec : readToEndLoop rd.preinit rest
            (b.len + min bytes.length ((growIf rd.preinit b.len b).len - b.len))
            ⟨writeAt (growIf rd.preinit b.len b).storage b.len
                (bytes.take ((growIf rd.preinit b.len b).len - b.len)),
              (growIf rd.preinit b.len b).len⟩ with
        | none => rw [hrec] at hrun; simp at hrun
        | some o2 =>
          rw [hrec] at hrun
          injection hrun with hrun
          subst hrun
          have hb1len : b.len ≤ (growIf rd.preinit b.len b).len :=
            growIf_le_len rd.preinit b.len b (Nat.le_refl _)
          have hb1cap : (growIf rd.preinit b.len b).len ≤
              (growIf rd.preinit b.len b).capacity :=
            growIf_len_le_cap rd.preinit b.len b (Nat.le_refl _) hwf
          have hwlen : (bytes.take ((growIf rd.preinit b.len b).len - b.len)).length =
              min bytes.length ((growIf rd.preinit b.len b).len - b.len) := by
            rw [List.length_take, Nat.min_comm]
          have hgl2 : b.len + min bytes.length
              ((growIf rd.preinit b.len b).len - b.len) ≤
              (growIf rd.preinit b.len b).len := by
            have := Nat.min_le_right bytes.length
              ((growIf rd.preinit b.len b).len - b.len)
            omega
          have hfit : b.len + (bytes.take
              ((growIf rd.preinit b.len b).len - b.len)).length ≤
              (growIf rd.preinit b.len b).storage.length := by
            rw [hwlen]
            exact le_trans hgl2 hb1cap
          have hcap2 : Buf.capacity ⟨writeAt (growIf rd.preinit b.len b).storage
              b.len (bytes.take ((growIf rd.preinit b.len b).len - b.len)),
              (growIf rd.preinit b.len b).len⟩ =
              (growIf rd.preinit b.len b).capacity :=
            writeAt_length _ _ _ hfit
          obtain ⟨l1, l2, l3, l4, l5⟩ := readToEndLoop_spec rd.preinit rest
            (b.len + min bytes.length ((growIf rd.preinit b.len b).len - b.len))
            ⟨writeAt (growIf rd.preinit b.len b).storage b.len
                (bytes.take ((growIf rd.preinit b.len b).len - b.len)),
              (growIf rd.preinit b.len b).len⟩
            o2 hgl2 (by rw [hcap2]; exact hb1cap) hrec
          show b.len + 32 ≤ o2.buf.capacity
          calc b.len + 32 ≤ (growIf rd.preinit b.len b).capacity := hneed
            _ = Buf.capacity ⟨writeAt (growIf rd.preinit b.len b).storage b.len
                (bytes.take ((growIf rd.preinit b.len b).len - b.len)),
                (growIf rd.preinit b.len b).len⟩ := hcap2.symm
            _ ≤ o2.buf.capacity := l4
  · intro rest hev
    replace hrun : readToEndLoop rd.preinit rd.events b.len b = some out := hrun
    rw [hev, readToEndLoop_cons_exit rd.preinit ReadOutcome.pending rest b.len b
      _ _ _ _ (loopStep_pending rd.preinit b.len b)] at hrun
    injection hrun with hrun
    subst hrun
    refine ⟨rfl, ?_, growBuf_capacity rd.preinit b.len b (Nat.le_refl _) hwf, ?_⟩
    · show (growIf rd.preinit b.len b).storage = (growBuf rd.preinit b.len b).storage
      rw [hgi]
    · intro hp
      show (growIf rd.preinit b.len b).storage.drop b.len =
        List.replicate (Buf.capacity ⟨(growIf rd.preinit b.len b).storage, b.len⟩ -
          b.len) (some 0)
      rw [hgi, hp]
      have hz := growBuf_drop_zero b.len b (Nat.le_refl _) hwf
      rw [hz]
      rfl

/-! ### Witnesses: the claims instantiated at the sample runs -/

/-- Witness for C1 at a concrete run. -/
theorem claim1_witness :
    Buf.wf wbufA ∧ Buf.initialized wbufA ∧
    read_to_end_internal wrdA wbufA = some woutA ∧
    (woutA.buf.len = wbufA.len + woutA.delivered.length ∧
      woutA.buf.visible = wbufA.visible ++ woutA.delivered.map some ∧
      woutA.buf.initialized) :=
  ⟨by decide, by decide, by decide,
    claim1_return_length_initialized wrdA wbufA woutA (by decide) (by decide)
      (by decide)⟩

/-- Witness for C2 at a concrete driven run. -/
theorem claim2_witness :
    Buf.wf ⟨[], 0⟩ ∧ drive 2 wrdB ⟨[], 0⟩ = some woutB ∧
    woutB.result = RunResult.ok ∧ woutB.clamped = false ∧
    woutB.buf.visible =
      Buf.visible ⟨[], 0⟩ ++ (deliveredDrive wrdB.events).map some :=
  ⟨by decide, by decide, by decide, by decide,
    claim2_final_content 2 wrdB ⟨[], 0⟩ woutB (by decide) (by decide)
      (Or.inl (by decide)) (by decide)⟩

/-- Witness for C3 at a concrete erroring run. -/
theorem claim3_witness :
    Buf.wf wbufA ∧ Buf.initialized wbufA ∧ drive 1 wrdC wbufA = some woutC ∧
    woutC.clamped = false ∧
    driveSpec wrdC.events = some (RunResult.errored 7) ∧
    (woutC.result = RunResult.errored 7 ∧
      woutC.buf.len = wbufA.len + (deliveredDrive wrdC.events).length ∧
      woutC.buf.initialized) :=
  ⟨by decide, by decide, by decide, by decide, by decide,
    claim3_error_exact_length 1 wrdC wbufA woutC 7 (by decide) (by decide)
      (by decide) (by decide) (by decide)⟩

/-- Witness for C4 at a concrete erroring run. -/
theorem claim4_witness :
    Buf.wf wbufA ∧ drive 1 wrdC wbufA = some woutC ∧ woutC.clamped = false ∧
    driveSpec wrdC.events = some woutC.result :=
  ⟨by decide, by decide, by decide,
    claim4_error_verbatim 1 wrdC wbufA woutC (by decide) (by decide) (by decide)⟩

/-- Witness for C5 at a concrete suspending run. -/
theorem claim5_witness :
    Buf.wf wbufA ∧ Buf.initialized wbufA ∧
    read_to_end_internal wrdD wbufA = some woutD ∧
    woutD.result = RunResult.pending ∧ woutD.clamped = false ∧
    (pollSpec wrdD.events = some (RunResult.pending, woutD.rest) ∧
      woutD.buf.len = wbufA.len + woutD.delivered.length ∧
      woutD.buf.visible = wbufA.visible ++ woutD.delivered.map some ∧
      woutD.buf.initialized) :=
  ⟨by decide, by decide, by decide, by decide, by decide,
    claim5_pending_immediate wrdD wbufA woutD (by decide) (by decide)
      (by decide) (by decide) (by decide)⟩

/-- Witness for C6 at a concrete growth step. -/
theorem claim6_witness :
    1 ≤ wbufA.len ∧ Buf.wf wbufA ∧
    ((true = true → (growBuf true 1 wbufA).storage.drop 1 =
        List.replicate ((growBuf true 1 wbufA).capacity - 1) (some 0)) ∧
      (true = false → (growBuf true 1 wbufA).storage =
        wbufA.storage ++
          List.replicate ((growBuf true 1 wbufA).capacity - wbufA.capacity)
            none)) :=
  ⟨by decide, by decide,
    claim6_zero_fill_iff_preinit true 1 wbufA (by decide) (by decide)⟩

/-- Witness for C7 at a concrete unwinding run. -/
theorem claim7_witness :
    Buf.wf ⟨[], 0⟩ ∧ Buf.initialized ⟨[], 0⟩ ∧
    read_to_end_internal wrdE ⟨[], 0⟩ = some woutE ∧
    woutE.result = RunResult.unwound ∧
    (woutE.buf.len = Buf.len ⟨[], 0⟩ + woutE.delivered.length ∧
      woutE.buf.visible = Buf.visible ⟨[], 0⟩ ++ woutE.delivered.map some ∧
      woutE.buf.initialized) :=
  ⟨by decide, by decide, by decide, by decide,
    claim7_unwind_guard wrdE ⟨[], 0⟩ woutE (by decide) (by decide) (by decide)
      (by decide)⟩

/-- Witness for C8 at a concrete from-empty run. -/
theorem claim8_witness :
    drive 1 wrdF ⟨[], 0⟩ = some woutF ∧
    woutF.grows ≤ Nat.log 2 (woutF.delivered.length + 31) + 1 :=
  ⟨by decide, claim8_log_reservations 1 wrdF woutF (by decide)⟩

/-- Witness for C9 at a concrete loop iteration. -/
theorem claim9_witness :
    1 ≤ wbufA.len ∧ Buf.wf wbufA ∧
    ((∀ gLen2 b2 w grew cl,
        loopStep true (ReadOutcome.chunk [1, 2]) 1 wbufA =
          StepOut.cont gLen2 b2 w grew cl →
        gLen2 = 1 + w.length ∧ 1 ≤ gLen2 ∧ w ≠ [] ∧ gLen2 ≤ b2.capacity) ∧
      (∀ r b2 grew cl,
        loopStep true (ReadOutcome.chunk [1, 2]) 1 wbufA =
          StepOut.exit r b2 grew cl →
        b2.len = 1 ∧ b2.len ≤ b2.capacity)) :=
  ⟨by decide, by decide,
    claim9_committed_monotone true (ReadOutcome.chunk [1, 2]) 1 wbufA
      (by decide) (by decide)⟩

/-- Witness for C10 at a concrete immediately-suspending poll. -/
theorem claim10_witness :
    Buf.wf wbufA ∧ read_to_end_internal wrdG wbufA = some woutG ∧
    (wbufA.len + 32 ≤ woutG.buf.capacity ∧
      (∀ rest, wrdG.events = ReadOutcome.pending :: rest →
        woutG.buf.len = wbufA.len ∧
        woutG.buf.storage = (growBuf wrdG.preinit wbufA.len wbufA).storage ∧
        (growBuf wrdG.preinit wbufA.len wbufA).capacity =
          reserveCap wbufA.len 32 wbufA.capacity ∧
        (wrdG.preinit = true →
          woutG.buf.storage.drop wbufA.len =
            List.replicate (woutG.buf.capacity - wbufA.len) (some 0)))) :=
  ⟨by decide, by decide,
    claim10_reentry_regrow wrdG wbufA woutG (by decide) (by decide)⟩

end ReadToEnd
